import Mathlib

/-!
Verification of the OrderCache in-memory order store (top-level variant
`OrderCache.cpp`): data model, the six public operations, the greedy
matching-size query, and the index-consistency invariants.

Maps are embedded as association lists (`List (String × α)`) with unique
keys, mirroring `std::unordered_map`; the per-user id sets
(`std::unordered_set`) and per-security id vectors (`std::vector`) are both
`List String`.  Machine `unsigned int` arithmetic is `Nat` with an explicit
`% 2 ^ 32` where the C++ accumulator can wrap.
-/

/-- An order record: the six fields of `class Order` in `OrderCache.h`. -/
structure Order where
  orderId : String
  securityId : String
  side : String
  qty : Nat
  user : String
  company : String
deriving DecidableEq, Repr

/-- `2^32`, the modulus of C++ `unsigned int` arithmetic. -/
def U32 : Nat := 4294967296

/-- Key lookup in an association list (`unordered_map::find`). -/
def lookupA {α : Type} : List (String × α) → String → Option α
  | [], _ => none
  | (k, v) :: rest, key => if k = key then some v else lookupA rest key

/-- Remove the entry with the given key (`unordered_map::erase`); with unique
keys this removes the first (only) occurrence. -/
def eraseA {α : Type} : List (String × α) → String → List (String × α)
  | [], _ => []
  | (k, v) :: rest, key => if k = key then rest else (k, v) :: eraseA rest key

/-- Replace the value stored at a key, keeping its position. -/
def updateA {α : Type} : List (String × α) → String → α → List (String × α)
  | [], _, _ => []
  | (k, v) :: rest, key, val =>
    if k = key then (key, val) :: rest else (k, v) :: updateA rest key val

/-- The keys of an association list. -/
def keysOf {α : Type} (m : List (String × α)) : List String := m.map Prod.fst

/-- `unordered_set::emplace`: add an element unless already present. -/
def setInsert (l : List String) (x : String) : List String :=
  if x ∈ l then l else l ++ [x]

/-- The cache state: the primary id-keyed map and the two secondary
indices, mirroring members `m_orders`, `m_ordersByUser`, `m_ordersBySecId`
of `class OrderCache`. -/
structure OrderCache where
  m_orders : List (String × Order)
  m_ordersByUser : List (String × List String)
  m_ordersBySecId : List (String × List String)
deriving DecidableEq, Repr

/-- A default-constructed `OrderCache`: all three maps empty. -/
def emptyCache : OrderCache := ⟨[], [], []⟩

/-- The side-validation logic of `addOrder`: length gate 3..4, then
first-character dispatch, then full comparison with "Buy" / "Sell". -/
def sideOk (side : String) : Bool :=
  if side.length < 3 ∨ 4 < side.length then false
  else if side.front = 'B' then decide (side = "Buy")
  else if side.front = 'S' then decide (side = "Sell")
  else false

/-- `try_emplace` into the user index followed by `emplace` of the id into
the user's set. -/
def bucketEmplace (idx : List (String × List String)) (k x : String) :
    List (String × List String) :=
  match lookupA idx k with
  | none => idx ++ [(k, setInsert [] x)]
  | some ids => updateA idx k (setInsert ids x)

/-- `try_emplace` into the security index followed by `emplace_back` of the
id into the security's vector. -/
def bucketAppend (idx : List (String × List String)) (k x : String) :
    List (String × List String) :=
  match lookupA idx k with
  | none => idx ++ [(k, [x])]
  | some ids => updateA idx k (ids ++ [x])

/-- `OrderCache::addOrder`: reject empty id, then `try_emplace` into
`m_orders` (rejecting duplicates), then validate the remaining fields and
the side token — erasing the just-inserted entry on failure — and finally
index the order by user and by security. -/
def addOrder (c : OrderCache) (order : Order) : OrderCache :=
  if order.orderId = "" then c
  else
    match lookupA c.m_orders order.orderId with
    | some _ => c
    | none =>
      let m1 := c.m_orders ++ [(order.orderId, order)]
      if order.securityId = "" ∨ order.side = "" ∨ order.user = "" ∨
          order.company = "" ∨ order.qty = 0 then
        { c with m_orders := eraseA m1 order.orderId }
      else if sideOk order.side = false then
        { c with m_orders := eraseA m1 order.orderId }
      else
        { m_orders := m1,
          m_ordersByUser := bucketEmplace c.m_ordersByUser order.user order.orderId,
          m_ordersBySecId := bucketAppend c.m_ordersBySecId order.securityId order.orderId }

/-- Remove an order id from one secondary-index bucket, dropping the bucket
when it becomes empty (the common shape of both index updates in
`OrderCache::cancelOrder`). -/
def removeFromIndex (idx : List (String × List String)) (k oid : String) :
    List (String × List String) :=
  match lookupA idx k with
  | none => idx
  | some ids =>
    let f := ids.filter (fun x => decide (x ≠ oid))
    if f = [] then eraseA idx k else updateA idx k f

/-- `OrderCache::cancelOrder`: unknown id is a no-op; otherwise remove the
order from the user index, the security index, and the primary map. -/
def cancelOrder (c : OrderCache) (orderId : String) : OrderCache :=
  match lookupA c.m_orders orderId with
  | none => c
  | some ord =>
    { m_orders := eraseA c.m_orders orderId,
      m_ordersByUser := removeFromIndex c.m_ordersByUser ord.user orderId,
      m_ordersBySecId := removeFromIndex c.m_ordersBySecId ord.securityId orderId }

/-- `OrderCache::cancelOrdersForUser`: snapshot the user's order ids, then
cancel each via the single-order path. -/
def cancelOrdersForUser (c : OrderCache) (user : String) : OrderCache :=
  match lookupA c.m_ordersByUser user with
  | none => c
  | some ids => ids.foldl cancelOrder c

/-- `OrderCache::cancelOrdersForSecIdWithMinimumQty`: empty security id or
zero minimum quantity is a no-op; otherwise collect from the security's
bucket every id whose order has `qty >= minQty`, then cancel each. -/
def cancelOrdersForSecIdWithMinimumQty (c : OrderCache) (securityId : String)
    (minQty : Nat) : OrderCache :=
  if securityId = "" ∨ minQty = 0 then c
  else
    match lookupA c.m_ordersBySecId securityId with
    | none => c
    | some ids =>
      let toCancel := ids.filter (fun oid =>
        match lookupA c.m_orders oid with
        | some o => decide (minQty ≤ o.qty)
        | none => false)
      toCancel.foldl cancelOrder c

/-- `OrderCache::getAllOrders`: every currently held order, as copies. -/
def getAllOrders (c : OrderCache) : List Order := c.m_orders.map Prod.snd

/-- A matching candidate `(qty, company)`, mirroring
`std::pair<unsigned int, std::string>`. -/
abbrev Cand := Nat × String

/-- Lexicographic comparison of character lists, the order of
`std::string` operator< (UTF-8 byte order coincides with code-point
order). -/
def charListLe : List Char → List Char → Bool
  | [], _ => true
  | _ :: _, [] => false
  | x :: xs, y :: ys => if x = y then charListLe xs ys else decide (x.toNat < y.toNat)

/-- String comparison `a <= b` in the lexicographic `std::string` order. -/
def strLe (a b : String) : Bool := charListLe a.data b.data

/-- `a` is at or above `b` in the descending sort produced by
`std::sort(v.rbegin(), v.rend())`: the lexicographic pair order with `b`
below or equal to `a`. -/
def candGe (a b : Cand) : Prop := b.1 < a.1 ∨ (b.1 = a.1 ∧ strLe b.2 a.2 = true)

instance : DecidableRel candGe := fun a b =>
  inferInstanceAs (Decidable (b.1 < a.1 ∨ (b.1 = a.1 ∧ strLe b.2 a.2 = true)))

/-- Sort candidates descending by the pair `(qty, company)`, as
`std::sort(v.rbegin(), v.rend())` does. -/
def sortDesc (l : List Cand) : List Cand := List.insertionSort candGe l

/-- The inner sell scan of `getMatchingSizeForSecurity` for one buy order:
skip exhausted sells and sells of the buy's own company, match
`min(buy, sell)` otherwise, accumulate into the wrapping `unsigned int`
total, and stop as soon as the buy's remainder is zero.  Returns the new
running total, the buy's remainder, and the updated sells. -/
def scanSells (comp : String) (total b : Nat) : List Cand → Nat × Nat × List Cand
  | [] => (total, b, [])
  | (sq, sc) :: rest =>
    if sq = 0 then
      let r := scanSells comp total b rest
      (r.1, r.2.1, (sq, sc) :: r.2.2)
    else if comp = sc then
      let r := scanSells comp total b rest
      (r.1, r.2.1, (sq, sc) :: r.2.2)
    else
      let m := min b sq
      let t2 := (total + m) % U32
      if b - m = 0 then (t2, 0, (sq - m, sc) :: rest)
      else
        let r := scanSells comp t2 (b - m) rest
        (r.1, r.2.1, (sq - m, sc) :: r.2.2)

/-- The outer buy loop of `getMatchingSizeForSecurity`: skip exhausted
buys, scan the sells for each remaining buy, threading the wrapping total
and the mutated sell list. -/
def scanBuys (total : Nat) : List Cand → List Cand → Nat × List Cand
  | [], sells => (total, sells)
  | (bq, bc) :: brest, sells =>
    if bq = 0 then scanBuys total brest sells
    else
      let r := scanSells bc total bq sells
      scanBuys r.1 brest r.2.2

/-- The collection loop of `getMatchingSizeForSecurity`: walk the
security's id vector, look each id up in `m_orders`, and split the found
orders into buy and sell candidate lists, preserving traversal order. -/
def collectCands (c : OrderCache) : List String → List Cand × List Cand
  | [] => ([], [])
  | oid :: rest =>
    match lookupA c.m_orders oid with
    | none => collectCands c rest
    | some o =>
      let p := collectCands c rest
      if o.side = "Buy" then ((o.qty, o.company) :: p.1, p.2)
      else if o.side = "Sell" then (p.1, (o.qty, o.company) :: p.2)
      else p

/-- `OrderCache::getMatchingSizeForSecurity`: empty or unknown security
returns 0; otherwise collect and split the security's orders, return 0 when
either side is empty, and run the greedy double loop over the descending
sorted candidate lists. -/
def getMatchingSizeForSecurity (c : OrderCache) (securityId : String) : Nat :=
  if securityId = "" then 0
  else
    match lookupA c.m_ordersBySecId securityId with
    | none => 0
    | some ids =>
      let p := collectCands c ids
      if p.1 = [] ∨ p.2 = [] then 0
      else (scanBuys 0 (sortDesc p.1) (sortDesc p.2)).1

/-- `getMatchingSizeForSecurity` as a state-passing call: the C++ method
writes no member state (its only mutations are the call-local scratch
vectors, cleared on entry), so the post-call store is the pre-call store. -/
def getMatchingSizeForSecurityRun (c : OrderCache) (securityId : String) :
    Nat × OrderCache :=
  (getMatchingSizeForSecurity c securityId, c)

/-- The `(side, qty, company)` triple of one resident order, the data the
matching query reads. -/
def orderTriple (o : Order) : String × Nat × String := (o.side, o.qty, o.company)

/-- The triples of the orders found by walking a list of ids through the
primary map (ids that fail the lookup are skipped, as in the code). -/
def tripsOf (c : OrderCache) (ids : List String) : List (String × Nat × String) :=
  ids.filterMap (fun oid => (lookupA c.m_orders oid).map orderTriple)

/-- The `(side, qty, company)` triples of the orders resident for one
security, in the order the matching query visits them. -/
def residentTriples (c : OrderCache) (securityId : String) :
    List (String × Nat × String) :=
  match lookupA c.m_ordersBySecId securityId with
  | none => []
  | some ids => tripsOf c ids

/-- The Buy candidates of a triple list. -/
def buysOf (ts : List (String × Nat × String)) : List Cand :=
  ts.filterMap (fun t => if t.1 = "Buy" then some (t.2.1, t.2.2) else none)

/-- The Sell candidates of a triple list. -/
def sellsOf (ts : List (String × Nat × String)) : List Cand :=
  ts.filterMap (fun t =>
    if t.1 = "Buy" then none
    else if t.1 = "Sell" then some (t.2.1, t.2.2) else none)

/-- Reference sell scan, following the words of spec section 4.1 step 4: for
one buy order, scan the sells largest first, skip exhausted sells and sells
of the buy's own company, match `min(buy_remaining, sell_remaining)`,
decrement both remainders, stop when the buy's remainder reaches 0.  The
total is exact (unbounded) arithmetic.  Returns the quantity matched for
this buy, the buy's remainder, and the updated sells. -/
def specScanSells (comp : String) (b : Nat) : List Cand → Nat × Nat × List Cand
  | [] => (0, b, [])
  | (sq, sc) :: rest =>
    if sq = 0 then
      let r := specScanSells comp b rest
      (r.1, r.2.1, (sq, sc) :: r.2.2)
    else if comp = sc then
      let r := specScanSells comp b rest
      (r.1, r.2.1, (sq, sc) :: r.2.2)
    else
      let m := min b sq
      if b - m = 0 then (m, 0, (sq - m, sc) :: rest)
      else
        let r := specScanSells comp (b - m) rest
        (m + r.1, r.2.1, (sq - m, sc) :: r.2.2)

/-- Reference buy loop, following spec section 4.1 step 4: for each buy
order largest first with remaining quantity > 0, run the sell scan;
decrements persist across iterations; the running total is exact.  Returns
the accumulated matched total and the final sells. -/
def specScanBuys : List Cand → List Cand → Nat × List Cand
  | [], sells => (0, sells)
  | (bq, bc) :: brest, sells =>
    if bq = 0 then specScanBuys brest sells
    else
      let r := specScanSells bc bq sells
      let r2 := specScanBuys brest r.2.2
      (r.1 + r2.1, r2.2)

/-- The reference greedy matching total of spec section 4.1, in exact
arithmetic: 0 for an empty or unknown security or fewer than two resident
orders; otherwise partition the security's orders into Buy and Sell
`(quantity, company)` lists, return 0 when either is empty after
partitioning, and run the greedy double loop over the descending sorted
lists. -/
def specMatchingTotal (c : OrderCache) (securityId : String) : Nat :=
  if securityId = "" then 0
  else
    let ts := residentTriples c securityId
    if ts.length < 2 then 0
    else if buysOf ts = [] ∨ sellsOf ts = [] then 0
    else (specScanBuys (sortDesc (buysOf ts)) (sortDesc (sellsOf ts))).1

/-- Sum of the quantities of a candidate list. -/
def sumQ (l : List Cand) : Nat := (l.map Prod.fst).sum

/-- Total quantity of the resident Buy orders of one security. -/
def buyQtySum (c : OrderCache) (securityId : String) : Nat :=
  sumQ (buysOf (residentTriples c securityId))

/-- Total quantity of the resident Sell orders of one security. -/
def sellQtySum (c : OrderCache) (securityId : String) : Nat :=
  sumQ (sellsOf (residentTriples c securityId))

/-- One call to a mutating operation of the cache. -/
inductive CacheOp where
  | add (o : Order)
  | cancel (oid : String)
  | cancelUser (u : String)
  | cancelSec (s : String) (minQty : Nat)

/-- Apply one operation to the cache. -/
def applyOp (c : OrderCache) : CacheOp → OrderCache
  | .add o => addOrder c o
  | .cancel oid => cancelOrder c oid
  | .cancelUser u => cancelOrdersForUser c u
  | .cancelSec s q => cancelOrdersForSecIdWithMinimumQty c s q

/-- Run a finite sequence of operations from the empty cache. -/
def runOps (ops : List CacheOp) : OrderCache := ops.foldl applyOp emptyCache

/-- Every id held in a bucket of a secondary index is the id of a resident
order whose projected field equals the bucket key. -/
def IndexSound (orders : List (String × Order))
    (idx : List (String × List String)) (proj : Order → String) : Prop :=
  ∀ b ∈ idx, ∀ id ∈ b.2, ∃ e ∈ orders, e.1 = id ∧ proj e.2 = b.1

/-- Every resident order is reachable through a bucket of the secondary
index keyed by its projected field. -/
def IndexComplete (orders : List (String × Order))
    (idx : List (String × List String)) (proj : Order → String) : Prop :=
  ∀ e ∈ orders, ∃ b ∈ idx, b.1 = proj e.2 ∧ e.1 ∈ b.2

/-- Well-formedness of a cache state: unique primary keys, stored key equal
to the order's own id, unique index keys, and soundness and completeness of
both secondary indices with respect to the primary map. -/
def WF (c : OrderCache) : Prop :=
  (keysOf c.m_orders).Nodup ∧
  (∀ e ∈ c.m_orders, e.2.orderId = e.1) ∧
  (keysOf c.m_ordersByUser).Nodup ∧
  IndexSound c.m_orders c.m_ordersByUser Order.user ∧
  IndexComplete c.m_orders c.m_ordersByUser Order.user ∧
  (keysOf c.m_ordersBySecId).Nodup ∧
  IndexSound c.m_orders c.m_ordersBySecId Order.securityId ∧
  IndexComplete c.m_orders c.m_ordersBySecId Order.securityId

/-- All order ids stored anywhere in a secondary index. -/
def idsOfIndex (idx : List (String × List String)) : List String :=
  idx.foldr (fun b acc => b.2 ++ acc) []

/-- The three views agree: the primary key set equals the id set of each
secondary index, and each resident order appears in exactly one user bucket
(keyed by its user) and exactly one security bucket (keyed by its
security id). -/
def ViewsAgree (c : OrderCache) : Prop :=
  (∀ id, id ∈ keysOf c.m_orders ↔ id ∈ idsOfIndex c.m_ordersByUser) ∧
  (∀ id, id ∈ keysOf c.m_orders ↔ id ∈ idsOfIndex c.m_ordersBySecId) ∧
  (∀ e ∈ c.m_orders,
    (c.m_ordersByUser.filter (fun b => decide (e.1 ∈ b.2))).map Prod.fst = [e.2.user]) ∧
  (∀ e ∈ c.m_orders,
    (c.m_ordersBySecId.filter (fun b => decide (e.1 ∈ b.2))).map Prod.fst = [e.2.securityId])

theorem keysOf_nil {α : Type} : keysOf ([] : List (String × α)) = [] := rfl

theorem keysOf_cons {α : Type} (k : String) (v : α) (m : List (String × α)) :
    keysOf ((k, v) :: m) = k :: keysOf m := rfl

theorem mem_keysOf {α : Type} {m : List (String × α)} {k : String} :
    k ∈ keysOf m ↔ ∃ v, (k, v) ∈ m := by
  constructor
  · intro h
    obtain ⟨e, he, hk⟩ := List.mem_map.mp h
    exact ⟨e.2, by simpa [← hk] using he⟩
  · rintro ⟨v, hv⟩
    exact List.mem_map.mpr ⟨(k, v), hv, rfl⟩

theorem mem_keysOf_of_mem {α : Type} {m : List (String × α)} {e : String × α}
    (h : e ∈ m) : e.1 ∈ keysOf m :=
  List.mem_map.mpr ⟨e, h, rfl⟩

theorem nodup_keysOf_cons {α : Type} {k : String} {v : α}
    {m : List (String × α)} (h : (keysOf ((k, v) :: m)).Nodup) :
    k ∉ keysOf m ∧ (keysOf m).Nodup := by
  rw [keysOf_cons] at h
  exact ⟨(List.nodup_cons.mp h).1, (List.nodup_cons.mp h).2⟩

theorem lookupA_eq_none {α : Type} {m : List (String × α)} {k : String} :
    lookupA m k = none ↔ k ∉ keysOf m := by
  induction m with
  | nil => simp [lookupA, keysOf]
  | cons hd tl ih =>
    obtain ⟨k', v'⟩ := hd
    rw [keysOf_cons]
    by_cases h : k' = k
    · subst h
      simp [lookupA]
    · simp only [lookupA, if_neg h, List.mem_cons, ih]
      constructor
      · intro hk hor
        rcases hor with h1 | h1
        · exact h h1.symm
        · exact hk h1
      · intro hk h1
        exact hk (Or.inr h1)

theorem lookupA_mem {α : Type} {m : List (String × α)} {k : String} {v : α}
    (h : lookupA m k = some v) : (k, v) ∈ m := by
  induction m with
  | nil => simp [lookupA] at h
  | cons hd tl ih =>
    obtain ⟨k', v'⟩ := hd
    by_cases hk : k' = k
    · subst hk
      simp [lookupA] at h
      simp [h]
    · simp only [lookupA, if_neg hk] at h
      exact List.mem_cons_of_mem _ (ih h)

theorem mem_lookupA {α : Type} {m : List (String × α)} {k : String} {v : α}
    (hn : (keysOf m).Nodup) (h : (k, v) ∈ m) : lookupA m k = some v := by
  induction m with
  | nil => simp at h
  | cons hd tl ih =>
    obtain ⟨k', v'⟩ := hd
    obtain ⟨hk', hn'⟩ := nodup_keysOf_cons hn
    rcases List.mem_cons.mp h with h1 | h1
    · obtain ⟨hk, hv⟩ := Prod.mk.injEq .. ▸ h1
      subst hk
      simp [lookupA, hv.symm]
    · have hk : k' ≠ k := by
        intro he
        subst he
        exact hk' (mem_keysOf.mpr ⟨v, h1⟩)
      simp only [lookupA, if_neg hk]
      exact ih hn' h1

theorem eraseA_of_not_mem {α : Type} {m : List (String × α)} {k : String}
    (h : k ∉ keysOf m) : eraseA m k = m := by
  induction m with
  | nil => rfl
  | cons hd tl ih =>
    obtain ⟨k', v'⟩ := hd
    rw [keysOf_cons] at h
    have h1 : k' ≠ k := fun he => h (he ▸ List.mem_cons_self _ _)
    have h2 : k ∉ keysOf tl := fun he => h (List.mem_cons_of_mem _ he)
    simp [eraseA, h1, ih h2]

theorem eraseA_sublist {α : Type} (m : List (String × α)) (k : String) :
    (eraseA m k).Sublist m := by
  induction m with
  | nil => simp [eraseA]
  | cons hd tl ih =>
    obtain ⟨k', v'⟩ := hd
    by_cases h : k' = k
    · rw [eraseA, if_pos h]
      exact List.sublist_cons_self _ _
    · rw [eraseA, if_neg h]
      exact ih.cons₂ _

theorem keysOf_eraseA_nodup {α : Type} {m : List (String × α)} {k : String}
    (hn : (keysOf m).Nodup) : (keysOf (eraseA m k)).Nodup :=
  ((eraseA_sublist m k).map Prod.fst).nodup hn

theorem mem_eraseA {α : Type} {m : List (String × α)} {k : String}
    {e : String × α} (hn : (keysOf m).Nodup) :
    e ∈ eraseA m k ↔ e ∈ m ∧ e.1 ≠ k := by
  induction m with
  | nil => simp [eraseA]
  | cons hd tl ih =>
    obtain ⟨k', v'⟩ := hd
    obtain ⟨hk', hn'⟩ := nodup_keysOf_cons hn
    by_cases h : k' = k
    · subst h
      rw [eraseA, if_pos rfl]
      constructor
      · intro he
        refine ⟨List.mem_cons_of_mem _ he, ?_⟩
        intro hk
        exact hk' (hk ▸ mem_keysOf_of_mem he)
      · rintro ⟨h1, h2⟩
        rcases List.mem_cons.mp h1 with h3 | h3
        · exact absurd (congrArg Prod.fst h3) h2
        · exact h3
    · rw [eraseA, if_neg h]
      constructor
      · intro he
        rcases List.mem_cons.mp he with h1 | h1
        · subst h1
          exact ⟨List.mem_cons_self _ _, h⟩
        · obtain ⟨h2, h3⟩ := (ih hn').mp h1
          exact ⟨List.mem_cons_of_mem _ h2, h3⟩
      · rintro ⟨h1, h2⟩
        rcases List.mem_cons.mp h1 with h3 | h3
        · subst h3
          exact List.mem_cons_self _ _
        · exact List.mem_cons_of_mem _ ((ih hn').mpr ⟨h3, h2⟩)

theorem eraseA_eq_filter {α : Type} {m : List (String × α)} {k : String}
    (hn : (keysOf m).Nodup) :
    eraseA m k = m.filter (fun e => decide (e.1 ≠ k)) := by
  induction m with
  | nil => rfl
  | cons hd tl ih =>
    obtain ⟨k', v'⟩ := hd
    obtain ⟨hk', hn'⟩ := nodup_keysOf_cons hn
    by_cases h : k' = k
    · subst h
      rw [eraseA, if_pos rfl, List.filter_cons]
      rw [if_neg (by simp)]
      refine (List.filter_eq_self.mpr ?_).symm
      intro e he
      simp only [decide_eq_true_eq]
      intro hk
      exact hk' (hk ▸ mem_keysOf_of_mem he)
    · rw [eraseA, if_neg h, List.filter_cons]
      simp only [ne_eq, decide_not]
      have : (!decide (k' = k)) = true := by simp [h]
      simp only [this, if_true]
      rw [ih hn']
      simp [ne_eq, decide_not]

theorem keysOf_updateA {α : Type} (m : List (String × α)) (k : String) (v : α) :
    keysOf (updateA m k v) = keysOf m := by
  induction m with
  | nil => rfl
  | cons hd tl ih =>
    obtain ⟨k', v'⟩ := hd
    by_cases h : k' = k
    · subst h
      simp [updateA, keysOf_cons]
    · rw [updateA, if_neg h, keysOf_cons, keysOf_cons, ih]

theorem mem_updateA {α : Type} {m : List (String × α)} {k : String} {v : α}
    {e : String × α} (hn : (keysOf m).Nodup) :
    e ∈ updateA m k v ↔ (e = (k, v) ∧ k ∈ keysOf m) ∨ (e ∈ m ∧ e.1 ≠ k) := by
  induction m with
  | nil => simp [updateA, keysOf]
  | cons hd tl ih =>
    obtain ⟨k', v'⟩ := hd
    obtain ⟨hk', hn'⟩ := nodup_keysOf_cons hn
    by_cases h : k' = k
    · subst h
      rw [updateA, if_pos rfl]
      constructor
      · intro he
        rcases List.mem_cons.mp he with h1 | h1
        · exact Or.inl ⟨h1, by rw [keysOf_cons]; exact List.mem_cons_self _ _⟩
        · refine Or.inr ⟨List.mem_cons_of_mem _ h1, ?_⟩
          intro hk
          exact hk' (hk ▸ mem_keysOf_of_mem h1)
      · rintro (⟨h1, _⟩ | ⟨h1, h2⟩)
        · subst h1
          exact List.mem_cons_self _ _
        · rcases List.mem_cons.mp h1 with h3 | h3
          · exact absurd (congrArg Prod.fst h3) h2
          · exact List.mem_cons_of_mem _ h3
    · rw [updateA, if_neg h]
      constructor
      · intro he
        rcases List.mem_cons.mp he with h1 | h1
        · subst h1
          exact Or.inr ⟨List.mem_cons_self _ _, h⟩
        · rcases (ih hn').mp h1 with ⟨h2, h3⟩ | ⟨h2, h3⟩
          · exact Or.inl ⟨h2, by rw [keysOf_cons]; exact List.mem_cons_of_mem _ h3⟩
          · exact Or.inr ⟨List.mem_cons_of_mem _ h2, h3⟩
      · rintro (⟨h1, h2⟩ | ⟨h1, h2⟩)
        · subst h1
          rw [keysOf_cons] at h2
          rcases List.mem_cons.mp h2 with h3 | h3
          · exact absurd h3.symm h
          · exact List.mem_cons_of_mem _ ((ih hn').mpr (Or.inl ⟨rfl, h3⟩))
        · rcases List.mem_cons.mp h1 with h3 | h3
          · subst h3
            exact List.mem_cons_self _ _
          · exact List.mem_cons_of_mem _ ((ih hn').mpr (Or.inr ⟨h3, h2⟩))

theorem lookupA_append_of_none {α : Type} {m m' : List (String × α)} {k : String}
    (h : lookupA m k = none) : lookupA (m ++ m') k = lookupA m' k := by
  induction m with
  | nil => simp
  | cons hd tl ih =>
    obtain ⟨k', v'⟩ := hd
    by_cases hk : k' = k
    · rw [lookupA, if_pos hk] at h
      exact absurd h (by simp)
    · rw [lookupA, if_neg hk] at h
      rw [List.cons_append, lookupA, if_neg hk]
      exact ih h

theorem lookupA_append_of_some {α : Type} {m : List (String × α)}
    (m' : List (String × α)) {k : String} {v : α}
    (h : lookupA m k = some v) : lookupA (m ++ m') k = some v := by
  induction m with
  | nil => simp [lookupA] at h
  | cons hd tl ih =>
    obtain ⟨k', v'⟩ := hd
    by_cases hk : k' = k
    · rw [lookupA, if_pos hk] at h
      rw [List.cons_append, lookupA, if_pos hk]
      exact h
    · rw [lookupA, if_neg hk] at h
      rw [List.cons_append, lookupA, if_neg hk]
      exact ih h

theorem eraseA_append_self {α : Type} {m : List (String × α)} {k : String}
    (h : k ∉ keysOf m) (v : α) : eraseA (m ++ [(k, v)]) k = m := by
  induction m with
  | nil => simp [eraseA]
  | cons hd tl ih =>
    obtain ⟨k', v'⟩ := hd
    rw [keysOf_cons] at h
    have h1 : k' ≠ k := fun he => h (he ▸ List.mem_cons_self _ _)
    have h2 : k ∉ keysOf tl := fun he => h (List.mem_cons_of_mem _ he)
    rw [List.cons_append, eraseA, if_neg h1, ih h2]

theorem sideOk_iff (s : String) : sideOk s = true ↔ s = "Buy" ∨ s = "Sell" := by
  constructor
  · intro h
    unfold sideOk at h
    split at h
    · exact absurd h (by simp)
    · split at h
      · exact Or.inl (by simpa using h)
      · split at h
        · exact Or.inr (by simpa using h)
        · exact absurd h (by simp)
  · rintro (rfl | rfl) <;> decide

theorem sideOk_eq_false {s : String} (h1 : s ≠ "Buy") (h2 : s ≠ "Sell") :
    sideOk s = false := by
  cases hb : sideOk s with
  | false => rfl
  | true =>
    rcases (sideOk_iff s).mp hb with h | h
    · exact absurd h h1
    · exact absurd h h2

instance (orders : List (String × Order)) (idx : List (String × List String))
    (proj : Order → String) : Decidable (IndexSound orders idx proj) :=
  inferInstanceAs (Decidable (∀ b ∈ idx, ∀ id ∈ b.2, ∃ e ∈ orders, e.1 = id ∧ proj e.2 = b.1))

instance (orders : List (String × Order)) (idx : List (String × List String))
    (proj : Order → String) : Decidable (IndexComplete orders idx proj) :=
  inferInstanceAs (Decidable (∀ e ∈ orders, ∃ b ∈ idx, b.1 = proj e.2 ∧ e.1 ∈ b.2))

instance (c : OrderCache) : Decidable (WF c) := by
  unfold WF
  infer_instance

theorem filter_values_single {m : List (String × Order)} {x : String}
    {old : Order} (hn : (keysOf m).Nodup) (hid : ∀ e ∈ m, e.2.orderId = e.1)
    (hl : lookupA m x = some old) :
    (m.map Prod.snd).filter (fun ord => decide (ord.orderId = x)) = [old] := by
  induction m with
  | nil => simp [lookupA] at hl
  | cons hd tl ih =>
    obtain ⟨k, v⟩ := hd
    obtain ⟨hk', hn'⟩ := nodup_keysOf_cons hn
    have hv : v.orderId = k := hid (k, v) (List.mem_cons_self _ _)
    by_cases hkx : k = x
    · subst hkx
      rw [lookupA, if_pos rfl] at hl
      obtain rfl : v = old := by simpa using hl
      rw [List.map_cons, List.filter_cons]
      rw [if_pos (by simp [hv])]
      have : (tl.map Prod.snd).filter (fun ord => decide (ord.orderId = k)) = [] := by
        rw [List.filter_eq_nil_iff]
        intro a ha
        obtain ⟨e, he, rfl⟩ := List.mem_map.mp ha
        simp only [decide_eq_true_eq]
        rw [hid e (List.mem_cons_of_mem _ he)]
        intro hek
        exact hk' (hek ▸ mem_keysOf_of_mem he)
      rw [this]
    · rw [lookupA, if_neg hkx] at hl
      rw [List.map_cons, List.filter_cons]
      rw [if_neg (by simp [hv, hkx])]
      exact ih hn' (fun e he => hid e (List.mem_cons_of_mem _ he)) hl

/-- Claim C5: for every Order with any required field empty, a side other
than exactly "Buy" or "Sell", or zero quantity, `addOrder` raises no error
and leaves the whole store state (primary map and both indices) exactly as
it was: a silent, atomic no-op. -/
theorem addOrder_invalid_silent_noop (c : OrderCache) (o : Order)
    (h : o.orderId = "" ∨ o.securityId = "" ∨ o.side = "" ∨ o.user = "" ∨
      o.company = "" ∨ o.qty = 0 ∨ (o.side ≠ "Buy" ∧ o.side ≠ "Sell")) :
    addOrder c o = c := by
  by_cases h0 : o.orderId = ""
  · simp [addOrder, h0]
  · cases hl : lookupA c.m_orders o.orderId with
    | some v => simp [addOrder, h0, hl]
    | none =>
      have herase : eraseA (c.m_orders ++ [(o.orderId, o)]) o.orderId = c.m_orders :=
        eraseA_append_self (lookupA_eq_none.mp hl) o
      by_cases h1 : o.securityId = "" ∨ o.side = "" ∨ o.user = "" ∨
          o.company = "" ∨ o.qty = 0
      · simp [addOrder, h0, hl, h1, herase]
      · have hside : o.side ≠ "Buy" ∧ o.side ≠ "Sell" := by tauto
        have hfalse : sideOk o.side = false := sideOk_eq_false hside.1 hside.2
        simp [addOrder, h0, hl, h1, hfalse, herase]

/-- Claim C5 witness: a concrete zero-quantity order is silently dropped. -/
theorem addOrder_invalid_silent_noop_witness :
    (Order.qty ⟨"Z1", "SecA", "Buy", 0, "U9", "CoQ"⟩ = 0) ∧
    addOrder emptyCache ⟨"Z1", "SecA", "Buy", 0, "U9", "CoQ"⟩ = emptyCache :=
  ⟨rfl, addOrder_invalid_silent_noop emptyCache _ (by decide)⟩

/-- Claim C6: a second `addOrder` with an id already held is silently
rejected: the store is unchanged and `getAllOrders` afterwards contains
exactly one order with that id, field-for-field the originally stored
one. -/
theorem addOrder_duplicate_id_rejected (c : OrderCache) (x : String)
    (old o2 : Order) (hWF : WF c) (hheld : lookupA c.m_orders x = some old)
    (hid : o2.orderId = x) :
    addOrder c o2 = c ∧
    (getAllOrders (addOrder c o2)).filter (fun ord => decide (ord.orderId = x)) = [old] := by
  have hnoop : addOrder c o2 = c := by
    by_cases h0 : o2.orderId = ""
    · simp [addOrder, h0]
    · have hl : lookupA c.m_orders o2.orderId = some old := hid ▸ hheld
      simp [addOrder, h0, hl]
  refine ⟨hnoop, ?_⟩
  rw [hnoop]
  exact filter_values_single hWF.1 hWF.2.1 hheld

/-- Claim C6 witness: inserting a second order with id "X1" leaves the
first untouched and `getAllOrders` holds exactly the original. -/
theorem addOrder_duplicate_id_rejected_witness :
    WF (addOrder emptyCache ⟨"X1", "SecA", "Buy", 100, "U1", "CoX"⟩) ∧
    addOrder (addOrder emptyCache ⟨"X1", "SecA", "Buy", 100, "U1", "CoX"⟩)
      ⟨"X1", "SecB", "Sell", 5, "U2", "CoY"⟩ =
      addOrder emptyCache ⟨"X1", "SecA", "Buy", 100, "U1", "CoX"⟩ ∧
    (getAllOrders (addOrder (addOrder emptyCache ⟨"X1", "SecA", "Buy", 100, "U1", "CoX"⟩)
      ⟨"X1", "SecB", "Sell", 5, "U2", "CoY"⟩)).filter
        (fun ord => decide (ord.orderId = "X1")) =
      [⟨"X1", "SecA", "Buy", 100, "U1", "CoX"⟩] := by
  have h := addOrder_duplicate_id_rejected
    (addOrder emptyCache ⟨"X1", "SecA", "Buy", 100, "U1", "CoX"⟩) "X1"
    ⟨"X1", "SecA", "Buy", 100, "U1", "CoX"⟩ ⟨"X1", "SecB", "Sell", 5, "U2", "CoY"⟩
    (by decide) (by decide) rfl
  exact ⟨by decide, h.1, h.2⟩

/-- Claim C8: the matching query has no observable side effect on the
store: the post-call state is the pre-call state, every resident order is
unchanged, and two consecutive calls return identical results. -/
theorem getMatchingSizeForSecurity_pure (c : OrderCache) (s : String) :
    (getMatchingSizeForSecurityRun c s).2 = c ∧
    getAllOrders (getMatchingSizeForSecurityRun c s).2 = getAllOrders c ∧
    (getMatchingSizeForSecurityRun c s).1 =
      (getMatchingSizeForSecurityRun (getMatchingSizeForSecurityRun c s).2 s).1 :=
  ⟨rfl, rfl, rfl⟩

theorem collectCands_eq (c : OrderCache) (ids : List String) :
    collectCands c ids = (buysOf (tripsOf c ids), sellsOf (tripsOf c ids)) := by
  induction ids with
  | nil => rfl
  | cons oid rest ih =>
    cases hl : lookupA c.m_orders oid with
    | none =>
      simp only [collectCands, hl]
      rw [ih]
      simp [tripsOf, List.filterMap_cons, hl]
    | some o =>
      simp only [collectCands, hl]
      rw [ih]
      have ht : tripsOf c (oid :: rest) = orderTriple o :: tripsOf c rest := by
        simp [tripsOf, List.filterMap_cons, hl]
      rw [ht]
      by_cases hb : o.side = "Buy"
      · simp [buysOf, sellsOf, List.filterMap_cons, orderTriple, hb]
      · by_cases hs : o.side = "Sell"
        · simp [buysOf, sellsOf, List.filterMap_cons, orderTriple, hb, hs]
        · simp [buysOf, sellsOf, List.filterMap_cons, orderTriple, hb, hs]

theorem buysOf_cons (t : String × Nat × String) (ts : List (String × Nat × String)) :
    buysOf (t :: ts) =
      if t.1 = "Buy" then (t.2.1, t.2.2) :: buysOf ts else buysOf ts := by
  by_cases hb : t.1 = "Buy"
  · simp [buysOf, List.filterMap_cons, hb]
  · simp [buysOf, List.filterMap_cons, hb]

theorem sellsOf_cons (t : String × Nat × String) (ts : List (String × Nat × String)) :
    sellsOf (t :: ts) =
      if t.1 = "Buy" then sellsOf ts
      else if t.1 = "Sell" then (t.2.1, t.2.2) :: sellsOf ts else sellsOf ts := by
  by_cases hb : t.1 = "Buy"
  · simp [sellsOf, List.filterMap_cons, hb]
  · by_cases hs : t.1 = "Sell"
    · simp [sellsOf, List.filterMap_cons, hb, hs]
    · simp [sellsOf, List.filterMap_cons, hb, hs]

theorem buysOf_sellsOf_length (ts : List (String × Nat × String)) :
    (buysOf ts).length + (sellsOf ts).length ≤ ts.length := by
  induction ts with
  | nil => simp [buysOf, sellsOf]
  | cons t rest ih =>
    rw [buysOf_cons, sellsOf_cons]
    by_cases hb : t.1 = "Buy"
    · simp only [if_pos hb, List.length_cons]
      omega
    · by_cases hs : t.1 = "Sell"
      · simp only [if_neg hb, if_pos hs, List.length_cons]
        omega
      · simp only [if_neg hb, if_neg hs, List.length_cons]
        omega

theorem U32_pos : 0 < U32 := by decide

theorem scanSells_eq_spec (comp : String) :
    ∀ (l : List Cand) (total b : Nat), total < U32 →
    scanSells comp total b l =
      ((total + (specScanSells comp b l).1) % U32,
       (specScanSells comp b l).2.1, (specScanSells comp b l).2.2) := by
  intro l
  induction l with
  | nil =>
    intro total b ht
    simp [scanSells, specScanSells, Nat.mod_eq_of_lt ht]
  | cons hd rest ih =>
    intro total b ht
    obtain ⟨sq, sc⟩ := hd
    by_cases h0 : sq = 0
    · simp only [scanSells, specScanSells, if_pos h0]
      rw [ih total b ht]
    · by_cases hc : comp = sc
      · simp only [scanSells, specScanSells, if_neg h0, if_pos hc]
        rw [ih total b ht]
      · by_cases hb : b - min b sq = 0
        · simp only [scanSells, specScanSells, if_neg h0, if_neg hc, if_pos hb]
        · simp only [scanSells, specScanSells, if_neg h0, if_neg hc, if_neg hb]
          rw [ih ((total + min b sq) % U32) (b - min b sq) (Nat.mod_lt _ U32_pos)]
          rw [Nat.mod_add_mod, Nat.add_assoc]

theorem scanBuys_eq_spec :
    ∀ (buys sells : List Cand) (total : Nat), total < U32 →
    scanBuys total buys sells =
      ((total + (specScanBuys buys sells).1) % U32, (specScanBuys buys sells).2) := by
  intro buys
  induction buys with
  | nil =>
    intro sells total ht
    simp [scanBuys, specScanBuys, Nat.mod_eq_of_lt ht]
  | cons hd brest ih =>
    intro sells total ht
    obtain ⟨bq, bc⟩ := hd
    by_cases h0 : bq = 0
    · simp only [scanBuys, specScanBuys, if_pos h0]
      exact ih sells total ht
    · simp only [scanBuys, specScanBuys, if_neg h0]
      rw [scanSells_eq_spec bc sells total bq ht]
      rw [ih ((specScanSells bc bq sells).2.2)
        ((total + (specScanSells bc bq sells).1) % U32) (Nat.mod_lt _ U32_pos)]
      rw [Nat.mod_add_mod, Nat.add_assoc]

theorem sumQ_nil : sumQ [] = 0 := rfl

theorem sumQ_cons (q : Nat) (co : String) (l : List Cand) :
    sumQ ((q, co) :: l) = q + sumQ l := by
  simp [sumQ]

theorem specScanSells_fst_add (comp : String) :
    ∀ (l : List Cand) (b : Nat),
      (specScanSells comp b l).1 + (specScanSells comp b l).2.1 = b := by
  intro l
  induction l with
  | nil => intro b; simp [specScanSells]
  | cons hd rest ih =>
    intro b
    obtain ⟨sq, sc⟩ := hd
    by_cases h0 : sq = 0
    · simp only [specScanSells, if_pos h0]
      exact ih b
    · by_cases hc : comp = sc
      · simp only [specScanSells, if_neg h0, if_pos hc]
        exact ih b
      · by_cases hb : b - min b sq = 0
        · simp only [specScanSells, if_neg h0, if_neg hc, if_pos hb]
          have h1 := Nat.min_le_left b sq
          omega
        · simp only [specScanSells, if_neg h0, if_neg hc, if_neg hb]
          have h1 := ih (b - min b sq)
          have h2 := Nat.min_le_left b sq
          omega

theorem specScanSells_sumQ (comp : String) :
    ∀ (l : List Cand) (b : Nat),
      (specScanSells comp b l).1 + sumQ (specScanSells comp b l).2.2 = sumQ l := by
  intro l
  induction l with
  | nil => intro b; simp [specScanSells, sumQ]
  | cons hd rest ih =>
    intro b
    obtain ⟨sq, sc⟩ := hd
    by_cases h0 : sq = 0
    · simp only [specScanSells, if_pos h0]
      rw [sumQ_cons, sumQ_cons]
      have h1 := ih b
      omega
    · by_cases hc : comp = sc
      · simp only [specScanSells, if_neg h0, if_pos hc]
        rw [sumQ_cons, sumQ_cons]
        have h1 := ih b
        omega
      · by_cases hb : b - min b sq = 0
        · simp only [specScanSells, if_neg h0, if_neg hc, if_pos hb]
          rw [sumQ_cons, sumQ_cons]
          have h2 := Nat.min_le_right b sq
          omega
        · simp only [specScanSells, if_neg h0, if_neg hc, if_neg hb]
          rw [sumQ_cons, sumQ_cons]
          have h1 := ih (b - min b sq)
          have h2 := Nat.min_le_right b sq
          omega

theorem specScanBuys_sumQ :
    ∀ (buys sells : List Cand),
      (specScanBuys buys sells).1 + sumQ (specScanBuys buys sells).2 = sumQ sells := by
  intro buys
  induction buys with
  | nil => intro sells; simp [specScanBuys]
  | cons hd brest ih =>
    intro sells
    obtain ⟨bq, bc⟩ := hd
    by_cases h0 : bq = 0
    · simp only [specScanBuys, if_pos h0]
      exact ih sells
    · simp only [specScanBuys, if_neg h0]
      have h1 := specScanSells_sumQ bc sells bq
      have h2 := ih ((specScanSells bc bq sells).2.2)
      omega

theorem specScanBuys_le_sells (buys sells : List Cand) :
    (specScanBuys buys sells).1 ≤ sumQ sells := by
  have h := specScanBuys_sumQ buys sells
  omega

theorem specScanBuys_le_buys :
    ∀ (buys sells : List Cand), (specScanBuys buys sells).1 ≤ sumQ buys := by
  intro buys
  induction buys with
  | nil => intro sells; simp [specScanBuys]
  | cons hd brest ih =>
    intro sells
    obtain ⟨bq, bc⟩ := hd
    by_cases h0 : bq = 0
    · simp only [specScanBuys, if_pos h0]
      rw [sumQ_cons]
      exact le_trans (ih sells) (by omega)
    · simp only [specScanBuys, if_neg h0]
      rw [sumQ_cons]
      have h1 := specScanSells_fst_add bc sells bq
      have h2 := ih ((specScanSells bc bq sells).2.2)
      omega

theorem getMatching_eq_spec_mod (c : OrderCache) (s : String) :
    getMatchingSizeForSecurity c s = specMatchingTotal c s % U32 := by
  by_cases h0 : s = ""
  · simp [getMatchingSizeForSecurity, specMatchingTotal, h0, Nat.zero_mod]
  · cases hl : lookupA c.m_ordersBySecId s with
    | none =>
      simp [getMatchingSizeForSecurity, specMatchingTotal, h0, hl,
        residentTriples, Nat.zero_mod]
    | some ids =>
      have hres : residentTriples c s = tripsOf c ids := by
        simp [residentTriples, hl]
      by_cases hbe : buysOf (tripsOf c ids) = [] ∨ sellsOf (tripsOf c ids) = []
      · by_cases hlen : (tripsOf c ids).length < 2
        · simp [getMatchingSizeForSecurity, specMatchingTotal, h0, hl, hres,
            collectCands_eq, hbe, hlen, Nat.zero_mod]
        · simp [getMatchingSizeForSecurity, specMatchingTotal, h0, hl, hres,
            collectCands_eq, hbe, hlen, Nat.zero_mod]
      · have hb1 : buysOf (tripsOf c ids) ≠ [] := fun h => hbe (Or.inl h)
        have hs1 : sellsOf (tripsOf c ids) ≠ [] := fun h => hbe (Or.inr h)
        have hlen : ¬ (tripsOf c ids).length < 2 := by
          have h1 : 0 < (buysOf (tripsOf c ids)).length := List.length_pos.mpr hb1
          have h2 : 0 < (sellsOf (tripsOf c ids)).length := List.length_pos.mpr hs1
          have h3 := buysOf_sellsOf_length (tripsOf c ids)
          omega
        simp only [getMatchingSizeForSecurity, specMatchingTotal, if_neg h0, hl,
          hres, collectCands_eq, if_neg hlen, hbe, if_false]
        rw [scanBuys_eq_spec _ _ 0 U32_pos]
        simp

theorem char_toNat_inj {a b : Char} (h : a.toNat = b.toNat) : a = b :=
  Char.ext (UInt32.ext h)

theorem charListLe_total : ∀ xs ys : List Char,
    charListLe xs ys = true ∨ charListLe ys xs = true := by
  intro xs
  induction xs with
  | nil => intro ys; exact Or.inl rfl
  | cons x xs ih =>
    intro ys
    cases ys with
    | nil => exact Or.inr rfl
    | cons y ys =>
      by_cases hxy : x = y
      · subst hxy
        simp only [charListLe, if_pos rfl]
        exact ih ys
      · have hne : x.toNat ≠ y.toNat := fun he => hxy (char_toNat_inj he)
        simp only [charListLe, if_neg hxy, if_neg (Ne.symm hxy)]
        rcases Nat.lt_or_ge x.toNat y.toNat with h | h
        · exact Or.inl (by simpa using h)
        · exact Or.inr (by simp; omega)

theorem charListLe_trans : ∀ xs ys zs : List Char,
    charListLe xs ys = true → charListLe ys zs = true → charListLe xs zs = true := by
  intro xs
  induction xs with
  | nil => intro ys zs _ _; rfl
  | cons x xs ih =>
    intro ys zs h1 h2
    cases ys with
    | nil => exact absurd h1 (by simp [charListLe])
    | cons y ys =>
      cases zs with
      | nil => exact absurd h2 (by simp [charListLe])
      | cons z zs =>
        by_cases hxy : x = y
        · subst hxy
          rw [charListLe, if_pos rfl] at h1
          by_cases hyz : x = z
          · subst hyz
            rw [charListLe, if_pos rfl] at h2 ⊢
            exact ih ys zs h1 h2
          · rw [charListLe, if_neg hyz] at h2 ⊢
            exact h2
        · rw [charListLe, if_neg hxy] at h1
          have hxylt : x.toNat < y.toNat := by simpa using h1
          by_cases hyz : y = z
          · subst hyz
            rw [charListLe, if_neg hxy]
            simpa using hxylt
          · rw [charListLe, if_neg hyz] at h2
            have hyzlt : y.toNat < z.toNat := by simpa using h2
            have hxz : x ≠ z := by
              intro he
              subst he
              omega
            rw [charListLe, if_neg hxz]
            simp
            omega

theorem charListLe_antisymm : ∀ xs ys : List Char,
    charListLe xs ys = true → charListLe ys xs = true → xs = ys := by
  intro xs
  induction xs with
  | nil =>
    intro ys _ h2
    cases ys with
    | nil => rfl
    | cons y ys => exact absurd h2 (by simp [charListLe])
  | cons x xs ih =>
    intro ys h1 h2
    cases ys with
    | nil => exact absurd h1 (by simp [charListLe])
    | cons y ys =>
      by_cases hxy : x = y
      · subst hxy
        rw [charListLe, if_pos rfl] at h1 h2
        rw [ih ys h1 h2]
      · rw [charListLe, if_neg hxy] at h1
        rw [charListLe, if_neg (Ne.symm hxy)] at h2
        have hl1 : x.toNat < y.toNat := by simpa using h1
        have hl2 : y.toNat < x.toNat := by simpa using h2
        omega

theorem strLe_total (a b : String) : strLe a b = true ∨ strLe b a = true :=
  charListLe_total a.data b.data

theorem strLe_trans {a b c : String} (h1 : strLe a b = true)
    (h2 : strLe b c = true) : strLe a c = true :=
  charListLe_trans a.data b.data c.data h1 h2

theorem strLe_antisymm {a b : String} (h1 : strLe a b = true)
    (h2 : strLe b a = true) : a = b :=
  String.ext (charListLe_antisymm a.data b.data h1 h2)

theorem candGe_trans : ∀ a b c : Cand, candGe a b → candGe b c → candGe a c := by
  intro a b c hab hbc
  rcases hab with h1 | ⟨h1, h2⟩
  · rcases hbc with h3 | ⟨h3, h4⟩
    · exact Or.inl (lt_trans h3 h1)
    · exact Or.inl (h3 ▸ h1)
  · rcases hbc with h3 | ⟨h3, h4⟩
    · exact Or.inl (h1 ▸ h3)
    · exact Or.inr ⟨h3.trans h1, strLe_trans h4 h2⟩

theorem candGe_total : ∀ a b : Cand, candGe a b ∨ candGe b a := by
  intro a b
  rcases Nat.lt_trichotomy a.1 b.1 with h | h | h
  · exact Or.inr (Or.inl h)
  · rcases strLe_total a.2 b.2 with h2 | h2
    · exact Or.inr (Or.inr ⟨h, h2⟩)
    · exact Or.inl (Or.inr ⟨h.symm, h2⟩)
  · exact Or.inl (Or.inl h)

theorem candGe_antisymm : ∀ a b : Cand, candGe a b → candGe b a → a = b := by
  intro a b hab hba
  rcases hab with h1 | ⟨h1, h2⟩
  · rcases hba with h3 | ⟨h3, h4⟩
    · exact absurd (lt_trans h1 h3) (lt_irrefl _)
    · exact absurd (h3 ▸ h1) (lt_irrefl _)
  · rcases hba with h3 | ⟨h3, h4⟩
    · exact absurd (h1 ▸ h3) (lt_irrefl _)
    · obtain ⟨a1, a2⟩ := a
      obtain ⟨b1, b2⟩ := b
      simp only at h1 h2 h4
      rw [h1, strLe_antisymm h4 h2]

instance : IsTrans Cand candGe := ⟨candGe_trans⟩

instance : IsTotal Cand candGe := ⟨candGe_total⟩

instance : IsAntisymm Cand candGe := ⟨candGe_antisymm⟩

theorem sortDesc_perm (l : List Cand) : (sortDesc l).Perm l :=
  List.perm_insertionSort candGe l

theorem sortDesc_eq_of_perm {l1 l2 : List Cand} (h : l1.Perm l2) :
    sortDesc l1 = sortDesc l2 :=
  List.eq_of_perm_of_sorted
    ((sortDesc_perm l1).trans (h.trans (sortDesc_perm l2).symm))
    (List.sorted_insertionSort candGe l1) (List.sorted_insertionSort candGe l2)

theorem sumQ_sortDesc (l : List Cand) : sumQ (sortDesc l) = sumQ l :=
  ((sortDesc_perm l).map Prod.fst).sum_eq

theorem mem_sortDesc {l : List Cand} {x : Cand} : x ∈ sortDesc l ↔ x ∈ l :=
  (sortDesc_perm l).mem_iff

theorem scanSells_all_same_company (k : String) :
    ∀ (sells : List Cand) (total b : Nat), (∀ x ∈ sells, x.2 = k) →
      scanSells k total b sells = (total, b, sells) := by
  intro sells
  induction sells with
  | nil => intro total b _; rfl
  | cons hd rest ih =>
    intro total b hs
    obtain ⟨sq, sc⟩ := hd
    have hsc : sc = k := hs (sq, sc) (List.mem_cons_self _ _)
    have hrest : ∀ x ∈ rest, x.2 = k := fun x hx => hs x (List.mem_cons_of_mem _ hx)
    by_cases hq : sq = 0
    · simp only [scanSells, if_pos hq]
      rw [ih total b hrest]
    · simp only [scanSells, if_neg hq, if_pos hsc.symm]
      rw [ih total b hrest]

theorem scanBuys_all_same_company (k : String) :
    ∀ (buys sells : List Cand) (total : Nat),
      (∀ x ∈ buys, x.2 = k) → (∀ x ∈ sells, x.2 = k) →
      scanBuys total buys sells = (total, sells) := by
  intro buys
  induction buys with
  | nil => intro sells total _ _; rfl
  | cons hd brest ih =>
    intro sells total hb hs
    obtain ⟨bq, bc⟩ := hd
    have hbc : bc = k := hb (bq, bc) (List.mem_cons_self _ _)
    have hrest : ∀ x ∈ brest, x.2 = k := fun x hx => hb x (List.mem_cons_of_mem _ hx)
    by_cases h0 : bq = 0
    · simp only [scanBuys, if_pos h0]
      exact ih sells total hrest hs
    · simp only [scanBuys, if_neg h0]
      rw [hbc, scanSells_all_same_company k sells total bq hs]
      exact ih sells total hrest hs

theorem mem_buysOf {ts : List (String × Nat × String)} {x : Cand}
    (hx : x ∈ buysOf ts) : ∃ t ∈ ts, x.2 = t.2.2 := by
  obtain ⟨t, ht, hft⟩ := List.mem_filterMap.mp hx
  by_cases hb : t.1 = "Buy"
  · rw [if_pos hb] at hft
    exact ⟨t, ht, by rw [← Option.some.injEq .. |>.mp hft]⟩
  · rw [if_neg hb] at hft
    exact absurd hft (by simp)

theorem mem_sellsOf {ts : List (String × Nat × String)} {x : Cand}
    (hx : x ∈ sellsOf ts) : ∃ t ∈ ts, x.2 = t.2.2 := by
  obtain ⟨t, ht, hft⟩ := List.mem_filterMap.mp hx
  by_cases hb : t.1 = "Buy"
  · rw [if_pos hb] at hft
    exact absurd hft (by simp)
  · rw [if_neg hb] at hft
    by_cases hs : t.1 = "Sell"
    · rw [if_pos hs] at hft
      exact ⟨t, ht, by rw [← Option.some.injEq .. |>.mp hft]⟩
    · rw [if_neg hs] at hft
      exact absurd hft (by simp)

/-- Claim C2: when every order resident for a security carries one single
company, the query matches nothing: same-company buy/sell pairs are wholly
excluded even when no other orders exist. -/
theorem same_company_zero_match (c : OrderCache) (s k : String)
    (h : ∀ t ∈ residentTriples c s, t.2.2 = k) :
    getMatchingSizeForSecurity c s = 0 := by
  unfold getMatchingSizeForSecurity
  by_cases h0 : s = ""
  · simp [h0]
  · simp only [if_neg h0]
    cases hl : lookupA c.m_ordersBySecId s with
    | none => simp
    | some ids =>
      have hres : tripsOf c ids = residentTriples c s := by
        simp [residentTriples, hl]
      simp only [collectCands_eq]
      by_cases hbe : buysOf (tripsOf c ids) = [] ∨ sellsOf (tripsOf c ids) = []
      · simp [hbe]
      · simp only [if_neg hbe]
        have hball : ∀ x ∈ sortDesc (buysOf (tripsOf c ids)), x.2 = k := by
          intro x hx
          obtain ⟨t, ht, hxt⟩ := mem_buysOf (mem_sortDesc.mp hx)
          rw [hxt]
          exact h t (hres ▸ ht)
        have hsall : ∀ x ∈ sortDesc (sellsOf (tripsOf c ids)), x.2 = k := by
          intro x hx
          obtain ⟨t, ht, hxt⟩ := mem_sellsOf (mem_sortDesc.mp hx)
          rw [hxt]
          exact h t (hres ▸ ht)
        rw [scanBuys_all_same_company k _ _ 0 hball hsall]

/-- The scenario-B store: Buy(SecA,1000,CoX) and Sell(SecA,500,CoX), both
from company CoX. -/
def c2store : OrderCache :=
  addOrder (addOrder emptyCache ⟨"B1", "SecA", "Buy", 1000, "U1", "CoX"⟩)
    ⟨"S1", "SecA", "Sell", 500, "U2", "CoX"⟩

/-- Claim C2 witness: the scenario-B store matches 0 on SecA. -/
theorem same_company_zero_match_witness :
    (∀ t ∈ residentTriples c2store "SecA", t.2.2 = "CoX") ∧
    getMatchingSizeForSecurity c2store "SecA" = 0 :=
  ⟨by decide, same_company_zero_match c2store "SecA" "CoX" (by decide)⟩

/-- Claim C4: the matched total never exceeds the smaller of the total Buy
quantity and the total Sell quantity resident for the security. -/
theorem getMatching_le_min_sums (c : OrderCache) (s : String) :
    getMatchingSizeForSecurity c s ≤ min (buyQtySum c s) (sellQtySum c s) := by
  rw [getMatching_eq_spec_mod]
  refine le_trans (Nat.mod_le _ _) ?_
  unfold specMatchingTotal buyQtySum sellQtySum
  by_cases h0 : s = ""
  · simp [h0]
  · simp only [if_neg h0]
    by_cases hlen : (residentTriples c s).length < 2
    · simp [hlen]
    · simp only [if_neg hlen]
      by_cases hbe : buysOf (residentTriples c s) = [] ∨ sellsOf (residentTriples c s) = []
      · simp [hbe]
      · simp only [if_neg hbe]
        refine Nat.le_min.mpr ⟨?_, ?_⟩
        · refine le_trans (specScanBuys_le_buys _ _) ?_
          rw [sumQ_sortDesc]
        · refine le_trans (specScanBuys_le_sells _ _) ?_
          rw [sumQ_sortDesc]

/-- The scenario-C store: one Buy(SecA,1000,CoX) and Sells of 100 CoY,
200 CoZ, 300 CoW. -/
def scenC : OrderCache :=
  addOrder (addOrder (addOrder (addOrder emptyCache
    ⟨"B1", "SecA", "Buy", 1000, "U1", "CoX"⟩)
    ⟨"S1", "SecA", "Sell", 100, "U2", "CoY"⟩)
    ⟨"S2", "SecA", "Sell", 200, "U3", "CoZ"⟩)
    ⟨"S3", "SecA", "Sell", 300, "U4", "CoW"⟩

/-- A store whose exact greedy total exceeds `2^32`: two buys and two sells
of 3000000000 across companies CoA and CoB, matching 6000000000 in exact
arithmetic. -/
def cexWrap : OrderCache :=
  addOrder (addOrder (addOrder (addOrder emptyCache
    ⟨"B1", "SecA", "Buy", 3000000000, "U1", "CoA"⟩)
    ⟨"B2", "SecA", "Buy", 3000000000, "U2", "CoB"⟩)
    ⟨"S1", "SecA", "Sell", 3000000000, "U3", "CoB"⟩)
    ⟨"S2", "SecA", "Sell", 3000000000, "U4", "CoA"⟩

/-- Claim C1 counterexample: on `cexWrap` the code returns the exact greedy
reference total 6000000000 wrapped to 1705032704, not the reference total
itself. -/
theorem getMatching_wrap_cex :
    getMatchingSizeForSecurity cexWrap "SecA" = 1705032704 ∧
    specMatchingTotal cexWrap "SecA" = 6000000000 ∧
    getMatchingSizeForSecurity cexWrap "SecA" ≠ specMatchingTotal cexWrap "SecA" := by
  refine ⟨by decide, by decide, ?_⟩
  intro h
  rw [show getMatchingSizeForSecurity cexWrap "SecA" = 1705032704 from by decide,
    show specMatchingTotal cexWrap "SecA" = 6000000000 from by decide] at h
  exact absurd h (by decide)

/-- Claim C1 (amended): for every store and security the query returns the
reference greedy total of spec section 4.1 reduced modulo `2^32` (the C++
`unsigned int` accumulator); in particular the scenario-C store returns
600, which is also the exact reference total. -/
theorem getMatching_eq_greedy_mod_u32 :
    (∀ (c : OrderCache) (s : String),
      getMatchingSizeForSecurity c s = specMatchingTotal c s % U32) ∧
    getMatchingSizeForSecurity scenC "SecA" = 600 ∧
    specMatchingTotal scenC "SecA" = 600 :=
  ⟨getMatching_eq_spec_mod, by decide, by decide⟩

/-- Claim C10: the matched total is accumulated in a 32-bit unsigned
integer: the returned value is the exact greedy reference total reduced
modulo `2^32`, and agrees with it exactly whenever the reference total is
below `2^32`. -/
theorem matched_total_mod_u32 (c : OrderCache) (s : String) :
    getMatchingSizeForSecurity c s = specMatchingTotal c s % U32 ∧
    (specMatchingTotal c s < U32 →
      getMatchingSizeForSecurity c s = specMatchingTotal c s) := by
  refine ⟨getMatching_eq_spec_mod c s, fun h => ?_⟩
  rw [getMatching_eq_spec_mod c s, Nat.mod_eq_of_lt h]

/-- A small store for the C10 witness: Buy(SecB,700,CoA), Sell(SecB,250,CoB). -/
def scen10 : OrderCache :=
  addOrder (addOrder emptyCache ⟨"B1", "SecB", "Buy", 700, "U1", "CoA"⟩)
    ⟨"S1", "SecB", "Sell", 250, "U2", "CoB"⟩

/-- Claim C10 witness: on a store whose reference total 250 is below
`2^32`, the returned value equals the reference total exactly. -/
theorem matched_total_mod_u32_witness :
    specMatchingTotal scen10 "SecB" < U32 ∧
    getMatchingSizeForSecurity scen10 "SecB" = specMatchingTotal scen10 "SecB" :=
  ⟨by decide, (matched_total_mod_u32 scen10 "SecB").2 (by decide)⟩

theorem perm_eq_nil_iff {α : Type} {l1 l2 : List α} (h : l1.Perm l2) :
    l1 = [] ↔ l2 = [] := by
  constructor
  · intro e
    exact (e ▸ h).symm.eq_nil
  · intro e
    exact (e ▸ h).eq_nil

theorem spec_total_of_perm {c1 c2 : OrderCache} {s : String}
    (h : (residentTriples c1 s).Perm (residentTriples c2 s)) :
    specMatchingTotal c1 s = specMatchingTotal c2 s := by
  unfold specMatchingTotal
  by_cases h0 : s = ""
  · simp [h0]
  · simp only [if_neg h0]
    have hb : (buysOf (residentTriples c1 s)).Perm (buysOf (residentTriples c2 s)) :=
      h.filterMap _
    have hs : (sellsOf (residentTriples c1 s)).Perm (sellsOf (residentTriples c2 s)) :=
      h.filterMap _
    rw [h.length_eq]
    by_cases hL : (residentTriples c2 s).length < 2
    · simp [hL]
    · simp only [if_neg hL]
      by_cases hbe : buysOf (residentTriples c2 s) = [] ∨ sellsOf (residentTriples c2 s) = []
      · have hbe1 : buysOf (residentTriples c1 s) = [] ∨
            sellsOf (residentTriples c1 s) = [] := by
          rcases hbe with h1 | h1
          · exact Or.inl ((perm_eq_nil_iff hb).mpr h1)
          · exact Or.inr ((perm_eq_nil_iff hs).mpr h1)
        simp [hbe, hbe1]
      · have hbe1 : ¬(buysOf (residentTriples c1 s) = [] ∨
            sellsOf (residentTriples c1 s) = []) := by
          intro hcon
          rcases hcon with h1 | h1
          · exact hbe (Or.inl ((perm_eq_nil_iff hb).mp h1))
          · exact hbe (Or.inr ((perm_eq_nil_iff hs).mp h1))
        simp only [if_neg hbe, if_neg hbe1]
        rw [sortDesc_eq_of_perm hb, sortDesc_eq_of_perm hs]

/-- Claim C9: the query's result depends only on the multiset of
`(side, qty, company)` triples resident for the security — any two stores
whose triples agree up to permutation (for instance after insertions in a
different order) return the same total, because the candidate lists are
sorted by the full `(quantity, company)` pair. -/
theorem matching_depends_only_on_triples (c1 c2 : OrderCache) (s : String)
    (h : (residentTriples c1 s).Perm (residentTriples c2 s)) :
    getMatchingSizeForSecurity c1 s = getMatchingSizeForSecurity c2 s := by
  rw [getMatching_eq_spec_mod, getMatching_eq_spec_mod, spec_total_of_perm h]

/-- Three orders inserted in one order. -/
def st9a : OrderCache :=
  addOrder (addOrder (addOrder emptyCache
    ⟨"B1", "SecA", "Buy", 300, "U1", "CoA"⟩)
    ⟨"S1", "SecA", "Sell", 200, "U2", "CoB"⟩)
    ⟨"S2", "SecA", "Sell", 300, "U3", "CoA"⟩

/-- The same three orders inserted in the reverse order. -/
def st9b : OrderCache :=
  addOrder (addOrder (addOrder emptyCache
    ⟨"S2", "SecA", "Sell", 300, "U3", "CoA"⟩)
    ⟨"S1", "SecA", "Sell", 200, "U2", "CoB"⟩)
    ⟨"B1", "SecA", "Buy", 300, "U1", "CoA"⟩

/-- Claim C9 witness: the two insertion orders give permuted resident
triples and the same matched total. -/
theorem matching_depends_only_on_triples_witness :
    (residentTriples st9a "SecA").Perm (residentTriples st9b "SecA") ∧
    getMatchingSizeForSecurity st9a "SecA" = getMatchingSizeForSecurity st9b "SecA" :=
  ⟨by decide, matching_depends_only_on_triples st9a st9b "SecA" (by decide)⟩

theorem key_unique {α : Type} {m : List (String × α)} (hn : (keysOf m).Nodup)
    {e e' : String × α} (he : e ∈ m) (he' : e' ∈ m) (hk : e.1 = e'.1) :
    e = e' := by
  have h1 : lookupA m e.1 = some e.2 := mem_lookupA hn (by rw [Prod.mk.eta]; exact he)
  have h2 : lookupA m e'.1 = some e'.2 := mem_lookupA hn (by rw [Prod.mk.eta]; exact he')
  rw [hk, h2] at h1
  have h3 : e'.2 = e.2 := Option.some.inj h1
  obtain ⟨e1, e2⟩ := e
  obtain ⟨e1', e2'⟩ := e'
  simp only at hk h3
  rw [hk, h3]

theorem m_orders_cancelOrder (c : OrderCache) (oid : String) :
    (cancelOrder c oid).m_orders = eraseA c.m_orders oid := by
  unfold cancelOrder
  cases hl : lookupA c.m_orders oid with
  | none =>
    simp only
    rw [eraseA_of_not_mem (lookupA_eq_none.mp hl)]
  | some o => simp only

theorem m_orders_foldl_cancel :
    ∀ (ids : List String) (c : OrderCache),
      (ids.foldl cancelOrder c).m_orders = ids.foldl eraseA c.m_orders := by
  intro ids
  induction ids with
  | nil => intro c; rfl
  | cons a rest ih =>
    intro c
    simp only [List.foldl_cons]
    rw [ih (cancelOrder c a), m_orders_cancelOrder]

theorem foldl_eraseA_eq_filter {α : Type} :
    ∀ (ids : List String) (m : List (String × α)), (keysOf m).Nodup →
      ids.foldl eraseA m = m.filter (fun e => decide (e.1 ∉ ids)) := by
  intro ids
  induction ids with
  | nil =>
    intro m _
    refine (List.filter_eq_self.mpr ?_).symm
    intro e _
    simp
  | cons a rest ih =>
    intro m hn
    simp only [List.foldl_cons]
    rw [ih (eraseA m a) (keysOf_eraseA_nodup hn), eraseA_eq_filter hn,
      List.filter_filter]
    refine List.filter_congr ?_
    intro e _
    by_cases h1 : e.1 = a
    · simp [h1]
    · by_cases h2 : e.1 ∈ rest
      · simp [h1, h2]
      · simp [h1, h2]

theorem keysOf_append {α : Type} (m m' : List (String × α)) :
    keysOf (m ++ m') = keysOf m ++ keysOf m' := by
  simp [keysOf]

theorem keysOf_removeFromIndex_nodup {idx : List (String × List String)}
    {k oid : String} (hn : (keysOf idx).Nodup) :
    (keysOf (removeFromIndex idx k oid)).Nodup := by
  unfold removeFromIndex
  cases hl : lookupA idx k with
  | none => exact hn
  | some ids =>
    simp only
    by_cases hf : ids.filter (fun x => decide (x ≠ oid)) = []
    · rw [if_pos hf]
      exact keysOf_eraseA_nodup hn
    · rw [if_neg hf, keysOf_updateA]
      exact hn

theorem IndexSound_remove {orders : List (String × Order)}
    {idx : List (String × List String)} {proj : Order → String}
    {oid : String} {o : Order}
    (hOn : (keysOf orders).Nodup) (hIn : (keysOf idx).Nodup)
    (hS : IndexSound orders idx proj) (ho : lookupA orders oid = some o) :
    IndexSound (eraseA orders oid) (removeFromIndex idx (proj o) oid) proj := by
  intro b hb id hid
  have hoo : (oid, o) ∈ orders := lookupA_mem ho
  have old : ∀ b' ∈ idx, ∀ id' ∈ b'.2, id' ≠ oid →
      ∃ e ∈ eraseA orders oid, e.1 = id' ∧ proj e.2 = b'.1 := by
    intro b' hb' id' hid' hne
    obtain ⟨e, he, he1, he2⟩ := hS b' hb' id' hid'
    exact ⟨e, (mem_eraseA hOn).mpr ⟨he, he1 ▸ hne⟩, he1, he2⟩
  have keyfact : ∀ b' ∈ idx, b'.1 ≠ proj o → ∀ id' ∈ b'.2, id' ≠ oid := by
    intro b' hb' hbk id' hid' heq
    obtain ⟨e, he, he1, he2⟩ := hS b' hb' id' hid'
    have he' : e = (oid, o) := key_unique hOn he hoo (by rw [he1, heq])
    rw [he'] at he2
    exact hbk he2.symm
  cases hl : lookupA idx (proj o) with
  | none =>
    simp only [removeFromIndex, hl] at hb
    by_cases hido : id = oid
    · exfalso
      obtain ⟨e, he, he1, he2⟩ := hS b hb id hid
      have he' : e = (oid, o) := key_unique hOn he hoo (by rw [he1, hido])
      rw [he'] at he2
      exact (lookupA_eq_none.mp hl) (he2 ▸ mem_keysOf_of_mem hb)
    · exact old b hb id hid hido
  | some ids =>
    simp only [removeFromIndex, hl] at hb
    by_cases hf : ids.filter (fun x => decide (x ≠ oid)) = []
    · rw [if_pos hf] at hb
      obtain ⟨hb', hbk⟩ := (mem_eraseA hIn).mp hb
      exact old b hb' id hid (keyfact b hb' hbk id hid)
    · rw [if_neg hf] at hb
      rcases (mem_updateA hIn).mp hb with ⟨hbe, _⟩ | ⟨hb', hbk⟩
      · subst hbe
        have hid' := List.mem_filter.mp hid
        have hne : id ≠ oid := by simpa using hid'.2
        exact old (proj o, ids) (lookupA_mem hl) id hid'.1 hne
      · exact old b hb' id hid (keyfact b hb' hbk id hid)

theorem IndexComplete_remove {orders : List (String × Order)}
    {idx : List (String × List String)} {proj : Order → String}
    {oid : String} {o : Order}
    (hOn : (keysOf orders).Nodup) (hIn : (keysOf idx).Nodup)
    (hC : IndexComplete orders idx proj) :
    IndexComplete (eraseA orders oid) (removeFromIndex idx (proj o) oid) proj := by
  intro e he
  obtain ⟨he', hne⟩ := (mem_eraseA hOn).mp he
  obtain ⟨b, hb, hbk, hbm⟩ := hC e he'
  by_cases hkey : proj e.2 = proj o
  · cases hl : lookupA idx (proj o) with
    | none =>
      exfalso
      have hkm : proj o ∈ keysOf idx := by
        have := mem_keysOf_of_mem hb
        rw [hbk, hkey] at this
        exact this
      exact lookupA_eq_none.mp hl hkm
    | some ids =>
      have hbeq : b = (proj o, ids) :=
        key_unique hIn hb (lookupA_mem hl) (by rw [hbk, hkey])
      rw [hbeq] at hbm
      have hfm : e.1 ∈ ids.filter (fun x => decide (x ≠ oid)) :=
        List.mem_filter.mpr ⟨hbm, by simpa using hne⟩
      have hf : ids.filter (fun x => decide (x ≠ oid)) ≠ [] := List.ne_nil_of_mem hfm
      refine ⟨(proj o, ids.filter (fun x => decide (x ≠ oid))), ?_, ?_, hfm⟩
      · simp only [removeFromIndex, hl]
        rw [if_neg hf]
        exact (mem_updateA hIn).mpr (Or.inl ⟨rfl, mem_keysOf_of_mem (lookupA_mem hl)⟩)
      · exact hkey.symm
  · have hbk' : b.1 ≠ proj o := by rw [hbk]; exact hkey
    refine ⟨b, ?_, hbk, hbm⟩
    cases hl : lookupA idx (proj o) with
    | none => simpa [removeFromIndex, hl] using hb
    | some ids =>
      simp only [removeFromIndex, hl]
      by_cases hf : ids.filter (fun x => decide (x ≠ oid)) = []
      · rw [if_pos hf]
        exact (mem_eraseA hIn).mpr ⟨hb, hbk'⟩
      · rw [if_neg hf]
        exact (mem_updateA hIn).mpr (Or.inr ⟨hb, hbk'⟩)

theorem WF_cancelOrder (c : OrderCache) (oid : String) (h : WF c) :
    WF (cancelOrder c oid) := by
  obtain ⟨h1, h2, h3, h4, h5, h6, h7, h8⟩ := h
  unfold cancelOrder
  cases hl : lookupA c.m_orders oid with
  | none => exact ⟨h1, h2, h3, h4, h5, h6, h7, h8⟩
  | some o =>
    unfold WF
    refine ⟨keysOf_eraseA_nodup h1, ?_, keysOf_removeFromIndex_nodup h3,
      IndexSound_remove h1 h3 h4 hl, IndexComplete_remove h1 h3 h5,
      keysOf_removeFromIndex_nodup h6, IndexSound_remove h1 h6 h7 hl,
      IndexComplete_remove h1 h6 h8⟩
    intro e he
    exact h2 e ((mem_eraseA h1).mp he).1

theorem addOrder_eq_or (c : OrderCache) (o : Order) :
    addOrder c o = c ∨
    (lookupA c.m_orders o.orderId = none ∧
      addOrder c o = OrderCache.mk (c.m_orders ++ [(o.orderId, o)])
        (bucketEmplace c.m_ordersByUser o.user o.orderId)
        (bucketAppend c.m_ordersBySecId o.securityId o.orderId)) := by
  by_cases h0 : o.orderId = ""
  · exact Or.inl (by simp [addOrder, h0])
  · cases hl : lookupA c.m_orders o.orderId with
    | some v => exact Or.inl (by simp [addOrder, h0, hl])
    | none =>
      have herase : eraseA (c.m_orders ++ [(o.orderId, o)]) o.orderId = c.m_orders :=
        eraseA_append_self (lookupA_eq_none.mp hl) o
      by_cases h1 : o.securityId = "" ∨ o.side = "" ∨ o.user = "" ∨
          o.company = "" ∨ o.qty = 0
      · exact Or.inl (by simp [addOrder, h0, hl, h1, herase])
      · by_cases h2 : sideOk o.side = false
        · exact Or.inl (by simp [addOrder, h0, hl, h1, h2, herase])
        · refine Or.inr ⟨rfl, ?_⟩
          simp [addOrder, h0, hl, h1, h2]

theorem bucketEmplace_eq {idx : List (String × List String)} {k x : String}
    (h : ∀ ids, lookupA idx k = some ids → x ∉ ids) :
    bucketEmplace idx k x = bucketAppend idx k x := by
  unfold bucketEmplace bucketAppend
  cases hl : lookupA idx k with
  | none => simp [setInsert]
  | some ids =>
    simp only
    rw [setInsert, if_neg (h ids hl)]

theorem keysOf_bucketAppend_nodup {idx : List (String × List String)} {k x : String}
    (hn : (keysOf idx).Nodup) : (keysOf (bucketAppend idx k x)).Nodup := by
  unfold bucketAppend
  cases hl : lookupA idx k with
  | none =>
    rw [keysOf_append]
    rw [List.nodup_append]
    refine ⟨hn, List.nodup_singleton k, ?_⟩
    intro a ha hb
    have : a = k := by simpa [keysOf] using hb
    subst this
    exact (lookupA_eq_none.mp hl) ha
  | some ids =>
    rw [keysOf_updateA]
    exact hn

theorem IndexSound_bucketAppend {orders : List (String × Order)}
    {idx : List (String × List String)} {proj : Order → String}
    {oid : String} {o : Order} (hIn : (keysOf idx).Nodup)
    (hS : IndexSound orders idx proj) :
    IndexSound (orders ++ [(oid, o)]) (bucketAppend idx (proj o) oid) proj := by
  intro b hb id hid
  have old : ∀ b' ∈ idx, ∀ id' ∈ b'.2,
      ∃ e ∈ orders ++ [(oid, o)], e.1 = id' ∧ proj e.2 = b'.1 := by
    intro b' hb' id' hid'
    obtain ⟨e, he, he1, he2⟩ := hS b' hb' id' hid'
    exact ⟨e, List.mem_append.mpr (Or.inl he), he1, he2⟩
  cases hl : lookupA idx (proj o) with
  | none =>
    simp only [bucketAppend, hl] at hb
    rcases List.mem_append.mp hb with hb' | hb'
    · exact old b hb' id hid
    · have hbe : b = (proj o, [oid]) := by simpa using hb'
      subst hbe
      have hide : id = oid := by simpa using hid
      subst hide
      exact ⟨(id, o), List.mem_append.mpr (Or.inr (by simp)), rfl, rfl⟩
  | some ids =>
    simp only [bucketAppend, hl] at hb
    rcases (mem_updateA hIn).mp hb with ⟨hbe, _⟩ | ⟨hb', _⟩
    · subst hbe
      rcases List.mem_append.mp hid with h1 | h1
      · exact old (proj o, ids) (lookupA_mem hl) id h1
      · have hide : id = oid := by simpa using h1
        subst hide
        exact ⟨(id, o), List.mem_append.mpr (Or.inr (by simp)), rfl, rfl⟩
    · exact old b hb' id hid

theorem IndexComplete_bucketAppend {orders : List (String × Order)}
    {idx : List (String × List String)} {proj : Order → String}
    {oid : String} {o : Order} (hIn : (keysOf idx).Nodup)
    (hC : IndexComplete orders idx proj) :
    IndexComplete (orders ++ [(oid, o)]) (bucketAppend idx (proj o) oid) proj := by
  intro e he
  rcases List.mem_append.mp he with he' | he'
  · obtain ⟨b, hb, hbk, hbm⟩ := hC e he'
    cases hl : lookupA idx (proj o) with
    | none =>
      refine ⟨b, ?_, hbk, hbm⟩
      simp only [bucketAppend, hl]
      exact List.mem_append.mpr (Or.inl hb)
    | some ids =>
      by_cases hkey : b.1 = proj o
      · have hbeq : b = (proj o, ids) := key_unique hIn hb (lookupA_mem hl) hkey
        refine ⟨(proj o, ids ++ [oid]), ?_, hkey ▸ hbk, ?_⟩
        · simp only [bucketAppend, hl]
          exact (mem_updateA hIn).mpr
            (Or.inl ⟨rfl, mem_keysOf_of_mem (lookupA_mem hl)⟩)
        · rw [hbeq] at hbm
          exact List.mem_append.mpr (Or.inl hbm)
      · refine ⟨b, ?_, hbk, hbm⟩
        simp only [bucketAppend, hl]
        exact (mem_updateA hIn).mpr (Or.inr ⟨hb, hkey⟩)
  · have hbe : e = (oid, o) := by simpa using he'
    subst hbe
    cases hl : lookupA idx (proj o) with
    | none =>
      refine ⟨(proj o, [oid]), ?_, rfl, by simp⟩
      simp only [bucketAppend, hl]
      exact List.mem_append.mpr (Or.inr (by simp))
    | some ids =>
      refine ⟨(proj o, ids ++ [oid]), ?_, rfl, by simp⟩
      simp only [bucketAppend, hl]
      exact (mem_updateA hIn).mpr (Or.inl ⟨rfl, mem_keysOf_of_mem (lookupA_mem hl)⟩)

theorem WF_addOrder (c : OrderCache) (o : Order) (h : WF c) : WF (addOrder c o) := by
  rcases addOrder_eq_or c o with heq | ⟨hl, heq⟩
  · rw [heq]; exact h
  · rw [heq]
    obtain ⟨h1, h2, h3, h4, h5, h6, h7, h8⟩ := h
    have hfresh : o.orderId ∉ keysOf c.m_orders := lookupA_eq_none.mp hl
    have hemp : bucketEmplace c.m_ordersByUser o.user o.orderId =
        bucketAppend c.m_ordersByUser o.user o.orderId := by
      refine bucketEmplace_eq ?_
      intro ids hids hmem
      obtain ⟨e, he, he1, _⟩ := h4 (o.user, ids) (lookupA_mem hids) o.orderId hmem
      exact hfresh (he1 ▸ mem_keysOf_of_mem he)
    unfold WF
    rw [hemp]
    refine ⟨?_, ?_, keysOf_bucketAppend_nodup h3, IndexSound_bucketAppend h3 h4,
      IndexComplete_bucketAppend h3 h5, keysOf_bucketAppend_nodup h6,
      IndexSound_bucketAppend h6 h7, IndexComplete_bucketAppend h6 h8⟩
    · rw [keysOf_append, List.nodup_append]
      refine ⟨h1, List.nodup_singleton _, ?_⟩
      intro a ha hb
      have : a = o.orderId := by simpa [keysOf] using hb
      subst this
      exact hfresh ha
    · intro e he
      rcases List.mem_append.mp he with he' | he'
      · exact h2 e he'
      · have : e = (o.orderId, o) := by simpa using he'
        rw [this]

theorem WF_foldl_cancelOrder :
    ∀ (ids : List String) (c : OrderCache), WF c → WF (ids.foldl cancelOrder c) := by
  intro ids
  induction ids with
  | nil => intro c h; exact h
  | cons a rest ih => intro c h; exact ih _ (WF_cancelOrder c a h)

theorem WF_applyOp (c : OrderCache) (op : CacheOp) (h : WF c) : WF (applyOp c op) := by
  cases op with
  | add o => exact WF_addOrder c o h
  | cancel oid => exact WF_cancelOrder c oid h
  | cancelUser u =>
    show WF (cancelOrdersForUser c u)
    unfold cancelOrdersForUser
    cases hl : lookupA c.m_ordersByUser u with
    | none => exact h
    | some ids => exact WF_foldl_cancelOrder ids c h
  | cancelSec s q =>
    show WF (cancelOrdersForSecIdWithMinimumQty c s q)
    unfold cancelOrdersForSecIdWithMinimumQty
    by_cases h0 : s = "" ∨ q = 0
    · rw [if_pos h0]
      exact h
    · rw [if_neg h0]
      cases hl : lookupA c.m_ordersBySecId s with
      | none => exact h
      | some ids => exact WF_foldl_cancelOrder _ c h

theorem WF_emptyCache : WF emptyCache := by decide

theorem WF_runOps (ops : List CacheOp) : WF (runOps ops) := by
  have hgen : ∀ (l : List CacheOp) (c : OrderCache), WF c → WF (l.foldl applyOp c) := by
    intro l
    induction l with
    | nil => intro c h; exact h
    | cons op rest ih => intro c h; exact ih _ (WF_applyOp c op h)
  exact hgen ops emptyCache WF_emptyCache

theorem mem_idsOfIndex {idx : List (String × List String)} {id : String} :
    id ∈ idsOfIndex idx ↔ ∃ b ∈ idx, id ∈ b.2 := by
  induction idx with
  | nil => simp [idsOfIndex]
  | cons hd tl ih =>
    simp only [idsOfIndex, List.foldr_cons, List.mem_append] at ih ⊢
    constructor
    · intro h
      rcases h with h | h
      · exact ⟨hd, List.mem_cons_self _ _, h⟩
      · obtain ⟨b, hb, hbm⟩ := ih.mp h
        exact ⟨b, List.mem_cons_of_mem _ hb, hbm⟩
    · rintro ⟨b, hb, hbm⟩
      rcases List.mem_cons.mp hb with h1 | h1
      · exact Or.inl (h1 ▸ hbm)
      · exact Or.inr (ih.mpr ⟨b, h1, hbm⟩)

theorem filter_buckets_single {idx : List (String × List String)} {u id : String}
    (hn : (keysOf idx).Nodup)
    (hiff : ∀ b ∈ idx, (id ∈ b.2 ↔ b.1 = u)) (hk : u ∈ keysOf idx) :
    (idx.filter (fun b => decide (id ∈ b.2))).map Prod.fst = [u] := by
  induction idx with
  | nil => simp [keysOf] at hk
  | cons hd tl ih =>
    obtain ⟨k, ids⟩ := hd
    obtain ⟨hk', hn'⟩ := nodup_keysOf_cons hn
    by_cases hku : k = u
    · subst hku
      have hmem : id ∈ ids := (hiff (k, ids) (List.mem_cons_self _ _)).mpr rfl
      rw [List.filter_cons, if_pos (by simpa using hmem)]
      have hrest : tl.filter (fun b => decide (id ∈ b.2)) = [] := by
        rw [List.filter_eq_nil_iff]
        intro b hb
        simp only [decide_eq_true_eq]
        intro hbm
        have : b.1 = k := (hiff b (List.mem_cons_of_mem _ hb)).mp hbm
        exact hk' (this ▸ mem_keysOf_of_mem hb)
      rw [hrest]
      rfl
    · have hnid : id ∉ ids := by
        intro hmem
        exact hku ((hiff (k, ids) (List.mem_cons_self _ _)).mp hmem)
      rw [List.filter_cons, if_neg (by simpa using hnid)]
      refine ih hn' (fun b hb => hiff b (List.mem_cons_of_mem _ hb)) ?_
      rw [keysOf_cons] at hk
      rcases List.mem_cons.mp hk with h1 | h1
      · exact absurd h1.symm hku
      · exact h1

theorem bucket_mem_iff_of_WF {orders : List (String × Order)}
    {idx : List (String × List String)} {proj : Order → String}
    (hOn : (keysOf orders).Nodup) (hIn : (keysOf idx).Nodup)
    (hS : IndexSound orders idx proj) (hC : IndexComplete orders idx proj)
    {e : String × Order} (he : e ∈ orders) :
    ∀ b ∈ idx, (e.1 ∈ b.2 ↔ b.1 = proj e.2) := by
  intro b hb
  constructor
  · intro hbm
    obtain ⟨e', he', he1, he2⟩ := hS b hb e.1 hbm
    have : e' = e := key_unique hOn he' he he1
    rw [this] at he2
    exact he2.symm
  · intro hbk
    obtain ⟨b', hb', hbk', hbm'⟩ := hC e he
    have : b = b' := key_unique hIn hb hb' (by rw [hbk, hbk'])
    rw [this]
    exact hbm'

theorem viewsAgree_of_WF (c : OrderCache) (h : WF c) : ViewsAgree c := by
  obtain ⟨h1, h2, h3, h4, h5, h6, h7, h8⟩ := h
  refine ⟨?_, ?_, ?_, ?_⟩
  · intro id
    constructor
    · intro hid
      obtain ⟨v, hv⟩ := mem_keysOf.mp hid
      obtain ⟨b, hb, _, hbm⟩ := h5 (id, v) hv
      exact mem_idsOfIndex.mpr ⟨b, hb, hbm⟩
    · intro hid
      obtain ⟨b, hb, hbm⟩ := mem_idsOfIndex.mp hid
      obtain ⟨e, he, he1, _⟩ := h4 b hb id hbm
      exact he1 ▸ mem_keysOf_of_mem he
  · intro id
    constructor
    · intro hid
      obtain ⟨v, hv⟩ := mem_keysOf.mp hid
      obtain ⟨b, hb, _, hbm⟩ := h8 (id, v) hv
      exact mem_idsOfIndex.mpr ⟨b, hb, hbm⟩
    · intro hid
      obtain ⟨b, hb, hbm⟩ := mem_idsOfIndex.mp hid
      obtain ⟨e, he, he1, _⟩ := h7 b hb id hbm
      exact he1 ▸ mem_keysOf_of_mem he
  · intro e he
    refine filter_buckets_single h3 (bucket_mem_iff_of_WF h1 h3 h4 h5 he) ?_
    obtain ⟨b, hb, hbk, _⟩ := h5 e he
    exact hbk ▸ mem_keysOf_of_mem hb
  · intro e he
    refine filter_buckets_single h6 (bucket_mem_iff_of_WF h1 h6 h7 h8 he) ?_
    obtain ⟨b, hb, hbk, _⟩ := h8 e he
    exact hbk ▸ mem_keysOf_of_mem hb

/-- Claim C7: after every finite sequence of addOrder, cancelOrder,
cancelOrdersForUser and cancelOrdersForSecIdWithMinimumQty calls, the three
views agree: the id set of the primary map equals the id set reachable
through the user index and the id set reachable through the security index,
and every resident order appears in exactly one user bucket (its user's)
and exactly one security bucket (its security's). -/
theorem three_views_agree_after_any_ops (ops : List CacheOp) :
    ViewsAgree (runOps ops) :=
  viewsAgree_of_WF (runOps ops) (WF_runOps ops)

/-- A store holding one SecA order of quantity 5. -/
def cex3 : OrderCache := addOrder emptyCache ⟨"O1", "SecA", "Buy", 5, "U1", "CoA"⟩

/-- Claim C3 counterexample: with minimum quantity q = 0 the call removes
nothing — the SecA order of quantity 5 ≥ 0 is still resident afterwards —
contradicting "removes exactly the orders with quantity ≥ q" at q = 0. -/
theorem cancelSec_qzero_keeps_order :
    cancelOrdersForSecIdWithMinimumQty cex3 "SecA" 0 = cex3 ∧
    lookupA (cancelOrdersForSecIdWithMinimumQty cex3 "SecA" 0).m_orders "O1" =
      some ⟨"O1", "SecA", "Buy", 5, "U1", "CoA"⟩ := by decide

/-- Claim C3 (amended): for a well-formed store, a nonempty security id and
q ≥ 1, cancelOrdersForSecIdWithMinimumQty removes exactly the resident
orders whose security id equals s and whose quantity is ≥ q (inclusive) and
no other order; for q = 0 or an empty security id the call is a no-op (the
code's explicit input guard). -/
theorem cancelSec_removes_exactly (c : OrderCache) (s : String) (q : Nat)
    (hWF : WF c) :
    (s ≠ "" → 1 ≤ q →
      (cancelOrdersForSecIdWithMinimumQty c s q).m_orders =
        c.m_orders.filter (fun e => decide (¬(e.2.securityId = s ∧ q ≤ e.2.qty)))) ∧
    ((s = "" ∨ q = 0) → cancelOrdersForSecIdWithMinimumQty c s q = c) := by
  obtain ⟨h1, h2, h3, h4, h5, h6, h7, h8⟩ := hWF
  constructor
  · intro hs hq
    have hnor : ¬(s = "" ∨ q = 0) := by
      rintro (h | h)
      · exact hs h
      · omega
    unfold cancelOrdersForSecIdWithMinimumQty
    rw [if_neg hnor]
    cases hl : lookupA c.m_ordersBySecId s with
    | none =>
      refine (List.filter_eq_self.mpr ?_).symm
      intro e he
      simp only [decide_eq_true_eq]
      rintro ⟨hsec, _⟩
      obtain ⟨b, hb, hbk, _⟩ := h8 e he
      rw [hsec] at hbk
      exact (lookupA_eq_none.mp hl) (hbk ▸ mem_keysOf_of_mem hb)
    | some ids =>
      rw [m_orders_foldl_cancel, foldl_eraseA_eq_filter _ _ h1]
      refine List.filter_congr ?_
      intro e he
      refine decide_eq_decide.mpr ?_
      have hlook : lookupA c.m_orders e.1 = some e.2 :=
        mem_lookupA h1 (by rw [Prod.mk.eta]; exact he)
      constructor
      · intro hnin hcon
        obtain ⟨hsec, hqty⟩ := hcon
        refine hnin (List.mem_filter.mpr ⟨?_, ?_⟩)
        · obtain ⟨b, hb, hbk, hbm⟩ := h8 e he
          have hbeq : b = (s, ids) :=
            key_unique h6 hb (lookupA_mem hl) (by rw [hbk, hsec])
          rw [hbeq] at hbm
          exact hbm
        · rw [hlook]
          simpa using hqty
      · intro hnp hin
        obtain ⟨hin1, hin2⟩ := List.mem_filter.mp hin
        rw [hlook] at hin2
        obtain ⟨e', he', he1, he2⟩ := h7 (s, ids) (lookupA_mem hl) e.1 hin1
        have heq : e' = e := key_unique h1 he' he he1
        rw [heq] at he2
        exact hnp ⟨he2, by simpa using hin2⟩
  · intro h0
    unfold cancelOrdersForSecIdWithMinimumQty
    rw [if_pos h0]

/-- A two-order store for the C3 witness. -/
def st3 : OrderCache :=
  addOrder (addOrder emptyCache ⟨"O1", "SecA", "Buy", 5, "U1", "CoA"⟩)
    ⟨"O2", "SecA", "Sell", 9, "U2", "CoB"⟩

/-- Claim C3 witness: at q = 6 exactly the quantity-9 SecA order is
removed from the two-order store. -/
theorem cancelSec_removes_exactly_witness :
    WF st3 ∧
    (cancelOrdersForSecIdWithMinimumQty st3 "SecA" 6).m_orders =
      st3.m_orders.filter (fun e => decide (¬(e.2.securityId = "SecA" ∧ 6 ≤ e.2.qty))) :=
  ⟨by decide,
    (cancelSec_removes_exactly st3 "SecA" 6 (by decide)).1 (by decide) (by decide)⟩
